import Mathlib

/-!
Verification of the NewStroke/Hershey → FontoBene converter
(`newstroke_hershey/convert.py`).

Shallow embedding conventions:

* Python floats are modelled as exact rationals (`ℚ`); a vertex
  `(x, y, angle)` is a triple `ℚ × ℚ × ℚ`.
* The external numeric routines used by the script (`numpy.sqrt`,
  `numpy.arctan2`, `numpy.pi`, and `scipy.optimize.leastsq`) are not code
  of this repository; they are abstracted as the fields of a `NumEnv`
  parameter.  All theorems about the segmenter's control flow are proved
  for every interpretation of these fields; concrete examples instantiate
  them consistently with the real functions on the values they touch.
  `scipy.optimize.leastsq` returns a pair `(center, ier)`; the script
  binds both and never inspects `ier`, which the model reflects by the
  `solve` field returning `(ℚ × ℚ) × ℤ`.
* Python lists are Lean lists; `polyline[i:i+k]` is `(p.drop i).take k`,
  and the `while i < len(polyline)` loop of `convert_polyline_arcs` is
  expressed as a recursion over the suffix `polyline.drop i`.
* Partial Python indexing (`polyline[0]`, `polyline[-1]`, `hershey[0]`)
  is modelled with `headI` / `getLast?.getD` / `getD` defaults; all call
  sites in the script reach these only on lists long enough for the
  defaults to be irrelevant, and the theorems below carry the
  corresponding length hypotheses where needed.
-/

/- Batteries seals the `Rat` field operations behind `@[irreducible]`;
re-open them so that concrete rational computations in witnesses and
counterexamples below can be discharged by `decide`. -/
attribute [local semireducible] Rat.add Rat.mul Rat.inv Rat.sub Rat.ofScientific

/-- A vertex `(x, y, arc_angle)` as used by the script (plain 3-tuples). -/
abbrev Vertex : Type := ℚ × ℚ × ℚ

/-- Abstraction of the external numeric library calls made by the script.
`solve xs ys est` models `scipy.optimize.leastsq(f, est, args=(xs, ys))`,
returning the fitted center together with the convergence flag `ier`. -/
structure NumEnv where
  solve : List ℚ → List ℚ → ℚ × ℚ → (ℚ × ℚ) × ℤ
  sqrt : ℚ → ℚ
  atan2 : ℚ → ℚ → ℚ
  pi : ℚ

/-- Mean of a list of rationals (`numpy.mean`); division by zero, which in
Lean yields `0`, is never reached by the script's call sites. -/
def qmean (l : List ℚ) : ℚ := l.sum / l.length

/-- `calc_R(x, y, xc, yc)` for a single point: distance from the center. -/
def calc_R (E : NumEnv) (x y xc yc : ℚ) : ℚ :=
  E.sqrt ((x - xc) ^ 2 + (y - yc) ^ 2)

/-- `leastsq_circle(x, y)`: centroid initial estimate, external solver for
the center (its `ier` flag is bound and then ignored, exactly as in the
script), mean distance as radius, and the sum of squared radial deviations
as residual. -/
def leastsq_circle (E : NumEnv) (x y : List ℚ) : ℚ × ℚ × ℚ × ℚ :=
  let x_m := qmean x
  let y_m := qmean y
  let center := (E.solve x y (x_m, y_m)).1
  let xc := center.1
  let yc := center.2
  let Ri := List.zipWith (fun a b => calc_R E a b xc yc) x y
  let R := qmean Ri
  let residu := (Ri.map (fun r => (r - R) ^ 2)).sum
  (xc, yc, R, residu)

/-- `try_convert_polyline_to_arc(polyline)`: fit a circle through the
points; reject when `residu / len(polyline) > 0.01`; otherwise return the
two-vertex arc `[(x1, y1, angle), (x2, y2, polyline[-1][2])]` where the
angle is the difference of the polar angles of the endpoints about the
fitted center, scaled by `9 / π`.  (The `lengths` list computed at the top
of the Python function only feeds commented-out checks and is dead code.)
-/
def try_convert_polyline_to_arc (E : NumEnv) (polyline : List Vertex) :
    Option (List Vertex) :=
  let fit := leastsq_circle E (polyline.map (fun v => v.1))
    (polyline.map (fun v => v.2.1))
  let xc := fit.1
  let yc := fit.2.1
  let residu := fit.2.2.2
  if residu / (polyline.length : ℚ) > 1 / 100 then none
  else
    let first := polyline.headI
    let last := polyline.getLast?.getD (0, 0, 0)
    let x1 := first.1
    let y1 := first.2.1
    let a1 := E.atan2 (y1 - yc) (x1 - xc)
    let x2 := last.1
    let y2 := last.2.1
    let a2 := E.atan2 (y2 - yc) (x2 - xc)
    let angle := (a2 - a1) * 9 / E.pi
    some [(x1, y1, angle), (x2, y2, last.2.2)]

/-- The inner `for k in range(len(polyline) - i, 2, -1)` loop of
`convert_polyline_arcs`, acting on the suffix `s = polyline[i:]`: try the
window `s[0:k]` for `k` descending, and return the first accepted arc
together with its `k`.  (A returned arc is always a 2-element list, so
Python's truthiness test `if arc:` coincides with `isSome`.) -/
def findArc (E : NumEnv) (s : List Vertex) : ℕ → Option (List Vertex × ℕ)
  | 0 => none
  | (m + 1) =>
    if m + 1 < 3 then none
    else
      match try_convert_polyline_to_arc E (s.take (m + 1)) with
      | some arc => some (arc, m + 1)
      | none => findArc E s m

/-- The `while i < len(polyline)` loop of `convert_polyline_arcs`,
expressed over the suffix `s = polyline[i:]`.  On an accepted arc of run
length `k` the cursor advances by `k - 1` (`i += k - 1`); otherwise the
vertex at the cursor is emitted unchanged and the cursor advances by 1. -/
def arcsLoop (E : NumEnv) (s : List Vertex) : List Vertex :=
  match s with
  | [] => []
  | v :: rest =>
    match hf : findArc E (v :: rest) (v :: rest).length with
    | some (arc, k) => arc ++ arcsLoop E ((v :: rest).drop (k - 1))
    | none => v :: arcsLoop E rest
termination_by s.length
decreasing_by
  · have h3 : ∀ k0 arc2 k2, findArc E (v :: rest) k0 = some (arc2, k2) → 3 ≤ k2 := by
      intro k0
      induction k0 with
      | zero => intro arc2 k2 hh; simp [findArc] at hh
      | succ m ih =>
        intro arc2 k2 hh
        rw [findArc] at hh
        by_cases hm : m + 1 < 3
        · simp [hm] at hh
        · simp only [if_neg hm] at hh
          cases htry : try_convert_polyline_to_arc E ((v :: rest).take (m + 1)) with
          | some a =>
            rw [htry] at hh
            have hk := congrArg Prod.snd (Option.some.inj hh)
            simp only at hk
            omega
          | none =>
            rw [htry] at hh
            exact ih arc2 k2 hh
    have := h3 _ arc k hf
    simp only [List.length_drop, List.length_cons]
    omega
  · simp only [List.length_cons]; omega

/-- `convert_polyline_arcs(polyline)`. -/
def convert_polyline_arcs (E : NumEnv) (polyline : List Vertex) : List Vertex :=
  arcsLoop E polyline

/-! ### Decimal rendering machinery

`format_number` in the script is `"{:g}".format(round(float(num), 2))`
followed by stripping a redundant leading zero.  `round(_, 2)` is modelled
as exact round-half-to-even at two decimal places on the rational value;
`"{:g}"` is modelled by the C `%g` conversion with precision 6 (round to 6
significant digits, choose fixed or scientific style from the resulting
decimal exponent, drop trailing fractional zeros and a then-trailing
decimal point).  All string pieces are built from `List Char` cores so
that the rendering lemmas are plain list reasoning. -/

/-- Round half to even (Python's `round` on exact values). -/
def roundHalfEven (x : ℚ) : ℤ :=
  let n := ⌊x⌋
  let r := x - (n : ℚ)
  if r < 1 / 2 then n
  else if 1 / 2 < r then n + 1
  else if n % 2 = 0 then n else n + 1

/-- `round(float(num), 2)`: round to two decimal places, half to even. -/
def pyRound2 (x : ℚ) : ℚ := (roundHalfEven (100 * x) : ℚ) / 100

/-- Fuel-driven little-endian base-10 digit extraction. -/
def digitsAux : ℕ → ℕ → List ℕ
  | _, 0 => []
  | 0, _ + 1 => []
  | f + 1, n + 1 => (n + 1) % 10 :: digitsAux f ((n + 1) / 10)

/-- Little-endian decimal digits of `n` (empty for `0`). -/
def natDigits (n : ℕ) : List ℕ := digitsAux n n

/-- The character for one decimal digit. -/
def digitChar (d : ℕ) : Char := Char.ofNat (48 + d)

/-- Decimal rendering of a natural number, as characters. -/
def renderNat (n : ℕ) : List Char :=
  if n = 0 then ['0'] else ((natDigits n).map digitChar).reverse

/-- Decimal rendering of `n` left-padded with zeros to width `w`. -/
def padDigits (w : ℕ) (n : ℕ) : List Char :=
  List.replicate (w - (natDigits n).length) '0' ++
    ((natDigits n).map digitChar).reverse

/-- Fixed-point rendering of a nonnegative rational with `d` decimal
places (the magnitude part of C's `%f` with precision `d`). -/
def renderFixed (a : ℚ) (d : ℕ) : List Char :=
  let n := (roundHalfEven (a * 10 ^ d)).toNat
  if d = 0 then renderNat n
  else renderNat (n / 10 ^ d) ++ '.' :: padDigits d (n % 10 ^ d)

/-- Remove trailing zeros of the fractional part and a then-trailing
decimal point (the `%g` trailing-zero removal; strings without a decimal
point are untouched). -/
def stripTrailingZeros (s : List Char) : List Char :=
  if '.' ∈ s then
    let r := s.reverse.dropWhile (fun c => c = '0')
    (match r with
      | '.' :: t => t
      | _ => r).reverse
  else s

/-- `⌊log10 a⌋` for positive rationals: digit count of `⌊a⌋` when
`a ≥ 1`, otherwise minus the first `k` with `a * 10 ^ k ≥ 1`. -/
def log10floor (a : ℚ) : ℤ :=
  if 1 ≤ a then ((natDigits ⌊a⌋.toNat).length : ℤ) - 1
  else
    -(((List.range ((natDigits a.den).length + 2)).find?
        (fun k => decide (1 ≤ a * 10 ^ k))).getD ((natDigits a.den).length + 2) : ℤ)

/-- Round a positive rational to 6 significant digits, returning the
rounded value together with its decimal exponent (recomputed after
rounding, which can bump it, e.g. `999999.8 ↦ 10^6`). -/
def roundSig6 (a : ℚ) : ℚ × ℤ :=
  let X := log10floor a
  let d : ℤ := 5 - X
  let a6 :=
    if 0 ≤ d then (roundHalfEven (a * 10 ^ d.toNat) : ℚ) / 10 ^ d.toNat
    else (roundHalfEven (a / 10 ^ (-d).toNat) : ℚ) * 10 ^ (-d).toNat
  (a6, log10floor a6)

/-- The C `%g` conversion with precision 6 applied to `q` (what
`"{:g}".format` produces): fixed style with `5 - X` decimals when the
decimal exponent `X` of the 6-significant-digit rounding lies in
`[-4, 6)`, scientific style otherwise, trailing zeros stripped. -/
def formatG (q : ℚ) : List Char :=
  if q = 0 then ['0']
  else
    let sgn : List Char := if q < 0 then ['-'] else []
    let p := roundSig6 |q|
    let a6 := p.1
    let X := p.2
    if -4 ≤ X ∧ X < 6 then
      sgn ++ stripTrailingZeros (renderFixed a6 (5 - X).toNat)
    else
      sgn ++ stripTrailingZeros (renderFixed (a6 / 10 ^ X) 5) ++
        'e' :: (if 0 ≤ X then '+' else '-') :: padDigits 2 X.natAbs

/-- Strip a redundant leading zero before the decimal point
(`"0.5" → ".5"`, `"-0.5" → "-.5"`), as in the script's two
`startswith` branches. -/
def stripLeadingZero (s : List Char) : List Char :=
  match s with
  | '-' :: '0' :: '.' :: t => '-' :: '.' :: t
  | '0' :: '.' :: t => '.' :: t
  | _ => s

/-- `format_number(num)`. -/
def format_number (num : ℚ) : String :=
  String.mk (stripLeadingZero (formatG (pyRound2 num)))

/-- Modelled from the spec's words (§4.5), for comparison with
`format_number`: round to 2 decimal places, render the rounded value in
its shortest decimal form (no trailing zeros, no forced decimal point),
then strip a redundant leading zero. -/
def formatNumberSpec (num : ℚ) : String :=
  let q := pyRound2 num
  String.mk (stripLeadingZero
    ((if q < 0 then ['-'] else []) ++ stripTrailingZeros (renderFixed |q| 2)))

/-! ### Vertex formatting and glyph serialization -/

/-- `format_vertex(vertex)`: `x,y` plus `,angle` when the angle annotation
is truthy (a nonzero float). -/
def format_vertex (v : Vertex) : String :=
  format_number v.1 ++ "," ++ format_number v.2.1 ++
    (if v.2.2 ≠ 0 then "," ++ format_number v.2.2 else "")

/-- `format_polylines(polylines)`: one `;`-separated line per polyline,
lines joined by newlines. -/
def format_polylines (polylines : List (List Vertex)) : String :=
  String.intercalate "\n"
    (polylines.map (fun p => String.intercalate ";" (p.map format_vertex)))

/-! ### Point decoding -/

/-- `convert_x(hershey)`: `(ord(c) - ord('R')) * 9/21`. -/
def convert_x (c : Char) : ℚ := ((c.toNat : ℚ) - 82) * (9 / 21)

/-- `convert_y(hershey)`: offset by 9, inverted, scaled by `9/21`. -/
def convert_y (c : Char) : ℚ := -(((c.toNat : ℚ) - 82) - 9) * (9 / 21)

/-- The index pairs `(hershey[2i], hershey[2i+1])` for
`i < len(hershey) // 2` (a trailing odd character is ignored). -/
def pairsOf : List Char → List (Char × Char)
  | a :: b :: rest => (a, b) :: pairsOf rest
  | _ => []

/-- One update of the running extent in `convert_polyline` /
`convert_polylines`: `g(x, cur) if cur else x`.  Python truthiness makes
this restart from `x` both when `cur` is `None` and when `cur` is exactly
`0.0` — the quirk examined by claim C10. -/
def pyUpd (g : ℚ → ℚ → ℚ) (x : ℚ) (cur : Option ℚ) : ℚ :=
  match cur with
  | some m => if m ≠ 0 then g x m else x
  | none => x

/-- `convert_polyline(hershey)`: decode coordinate pairs into zero-angle
vertices while tracking `x_min` / `x_max` through `pyUpd`. -/
def convert_polyline (hershey : List Char) : List Vertex × Option ℚ × Option ℚ :=
  (pairsOf hershey).foldl
    (fun st cp =>
      let x := convert_x cp.1
      let y := convert_y cp.2
      (st.1 ++ [(x, y, 0)], some (pyUpd min x st.2.1), some (pyUpd max x st.2.2)))
    ([], none, none)

/-- `hershey.split(' R')`: split on the two-character pen-lift marker,
leftmost-first, non-overlapping. -/
def splitOnPenLift : List Char → List (List Char)
  | [] => [[]]
  | ' ' :: 'R' :: rest => [] :: splitOnPenLift rest
  | c :: rest =>
    match splitOnPenLift rest with
    | s :: ss => (c :: s) :: ss
    | [] => [[c]]

/-- The running total update in `convert_polylines`:
`g(x, cur) if cur else x` where this time `x` itself is an optional
per-polyline extent.  When `x` is `None` and `cur` is truthy, Python would
raise a `TypeError` from `min(None, cur)`; the model returns the junk
value `g 0 cur` there, and every theorem touching this code path carries a
hypothesis keeping it out of that corner. -/
def pyUpdTot (g : ℚ → ℚ → ℚ) (x : Option ℚ) (cur : Option ℚ) : Option ℚ :=
  match cur with
  | some m => if m ≠ 0 then some (g (x.getD 0) m) else x
  | none => x

/-- `convert_polylines(hershey)`: split on pen lifts, keep nonempty
segments, and for each one append **both** the raw decoded polyline and
its arc-converted form, while folding the per-polyline extents into
running totals. -/
def convert_polylines (E : NumEnv) (hershey : List Char) :
    List (List Vertex) × Option ℚ × Option ℚ :=
  (splitOnPenLift hershey).foldl
    (fun st p =>
      if 0 < p.length then
        let r := convert_polyline p
        (st.1 ++ [r.1, convert_polyline_arcs E r.1],
         pyUpdTot min r.2.1 st.2.1,
         pyUpdTot max r.2.2 st.2.2)
      else st)
    ([], none, none)

/-- `offset_polylines(polylines, x_offset, y_offset)`. -/
def offset_polylines (polylines : List (List Vertex)) (x_offset y_offset : ℚ) :
    List (List Vertex) :=
  polylines.map (fun p => p.map (fun v => (v.1 + x_offset, v.2.1 + y_offset, v.2.2)))

/-- Fuel-driven little-endian base-16 digit extraction. -/
def hexDigitsAux : ℕ → ℕ → List ℕ
  | _, 0 => []
  | 0, _ + 1 => []
  | f + 1, n + 1 => (n + 1) % 16 :: hexDigitsAux f ((n + 1) / 16)

/-- The character for one uppercase hexadecimal digit. -/
def hexChar (d : ℕ) : Char :=
  if d < 10 then Char.ofNat (48 + d) else Char.ofNat (55 + d)

/-- Python's `'{:04X}'.format(n)`: uppercase hexadecimal, zero-padded to
at least four digits. -/
def hex4 (n : ℕ) : String :=
  String.mk (List.replicate (4 - (hexDigitsAux n n).length) '0' ++
    ((hexDigitsAux n n).map hexChar).reverse)

/-- `convert_glyph(codepoint, hershey)`: header line, then either the
formatted, left-aligned polylines, or — for a whitespace-only glyph — the
advance width `max(right - left - 3.26, 0)` decoded from the first two
characters.  (`hershey[0]` / `hershey[1]` on a too-short string would
raise in Python; the model defaults them to `'R'`, and glyph strings are
always long enough for this not to matter.) -/
def convert_glyph (E : NumEnv) (codepoint : ℕ) (hershey : List Char) : String :=
  let header := "[" ++ hex4 codepoint ++ "] " ++
    String.singleton (Char.ofNat codepoint) ++ "\n"
  let r := convert_polylines E (hershey.drop 2)
  if 0 < r.1.length then
    header ++ format_polylines (offset_polylines r.1 (-(r.2.1.getD 0)) 0)
  else
    let left := convert_x (hershey.getD 0 'R')
    let right := convert_x (hershey.getD 1 'R')
    header ++ "~" ++ format_number (max (right - left - 326 / 100) 0)

/-! ### Characterization of the segmenter -/

/-- Residual of the circle fit on one window (the `residu` component of
`leastsq_circle` applied to the window's coordinates). -/
def windowResidual (E : NumEnv) (q : List Vertex) : ℚ :=
  (leastsq_circle E (q.map (fun v => v.1)) (q.map (fun v => v.2.1))).2.2.2

/-- The fitted center for one window. -/
def windowCenter (E : NumEnv) (q : List Vertex) : ℚ × ℚ :=
  let fit := leastsq_circle E (q.map (fun v => v.1)) (q.map (fun v => v.2.1))
  (fit.1, fit.2.1)

/-- The two vertices the spec says an accepted run emits (§4.2): the run's
first point carrying `(θ_end - θ_start) · 9 / π` about the fitted center,
and the run's last point carrying the original last vertex's own angle
annotation. -/
def specArcEmit (E : NumEnv) (q : List Vertex) : List Vertex :=
  let c := windowCenter E q
  let first := q.headI
  let last := q.getLast?.getD (0, 0, 0)
  let thetaStart := E.atan2 (first.2.1 - c.2) (first.1 - c.1)
  let thetaEnd := E.atan2 (last.2.1 - c.2) (last.1 - c.1)
  [(first.1, first.2.1, (thetaEnd - thetaStart) * 9 / E.pi),
   (last.1, last.2.1, last.2.2)]


/-- Segments kept by `convert_polylines` (the `if len(p):` filter). -/
def keptSegs (h : List Char) : List (List Char) :=
  (splitOnPenLift h).filter (fun p => decide (0 < p.length))

/-- The running-total fold of `convert_polylines` over per-polyline
extents. -/
def pyFoldTot (g : ℚ → ℚ → ℚ) (l : List (Option ℚ)) (cur : Option ℚ) : Option ℚ :=
  l.foldl (fun c x => pyUpdTot g x c) cur

/-- The running-extent fold of `convert_polyline` over decoded
x-coordinates. -/
def pyFoldC (g : ℚ → ℚ → ℚ) (l : List ℚ) (cur : Option ℚ) : Option ℚ :=
  l.foldl (fun c x => some (pyUpd g x c)) cur

/-- The decoded x-coordinates of one stroke. -/
def xsOf (h : List Char) : List ℚ := (pairsOf h).map (fun cp => convert_x cp.1)

/-- The decoded vertices of one stroke. -/
def vertsOf (h : List Char) : List Vertex :=
  (pairsOf h).map (fun cp => (convert_x cp.1, convert_y cp.2, 0))

/-- All decoded x-coordinates of a glyph, across its kept strokes. -/
def allXs (h : List Char) : List ℚ := (keptSegs h).flatMap xsOf

/-- The fold that `List.min?` / `List.max?` compute: `none` on the empty
list, otherwise the `g`-fold of the tail over the head. -/
def runFold (g : ℚ → ℚ → ℚ) : List ℚ → Option ℚ
  | [] => none
  | a :: t => some (t.foldl g a)

/-- One step of the Arc Segmenter at cursor `i`, as described by the spec
(§4.2): candidate run lengths are tried from `n - i` down to `3`; an arc
is found exactly when some window passes `residual / k ≤ 0.01`, and then
`k` is the largest passing length, the two emitted vertices are
`specArcEmit` of the window, and the cursor advances to `i + (k - 1)`;
otherwise every window fails the test, the vertex at the cursor is
emitted unchanged, and the cursor advances by one. -/
def SegStep (E : NumEnv) (p : List Vertex) (i : ℕ) : Prop :=
  (∀ arc k, findArc E (p.drop i) (p.drop i).length = some (arc, k) →
    3 ≤ k ∧ i + k ≤ p.length ∧
    windowResidual E ((p.drop i).take k) / (k : ℚ) ≤ 1 / 100 ∧
    (∀ j, k < j → i + j ≤ p.length →
      1 / 100 < windowResidual E ((p.drop i).take j) / (j : ℚ)) ∧
    arc = specArcEmit E ((p.drop i).take k) ∧
    arcsLoop E (p.drop i) =
      specArcEmit E ((p.drop i).take k) ++ arcsLoop E (p.drop (i + (k - 1)))) ∧
  (findArc E (p.drop i) (p.drop i).length = none →
    (∀ j, 3 ≤ j → i + j ≤ p.length →
      1 / 100 < windowResidual E ((p.drop i).take j) / (j : ℚ)) ∧
    arcsLoop E (p.drop i) = (p.drop i).headI :: arcsLoop E (p.drop (i + 1)))

/-! ### Concrete environments and inputs for examples -/

/-- A trivial environment (used where the numeric fields are never
consulted, e.g. polylines below the arc threshold). -/
def envZero : NumEnv where
  solve := fun _ _ _ => ((0, 0), 1)
  sqrt := fun q => q
  atan2 := fun _ _ => 0
  pi := 1

/-- Environment agreeing with the real numeric routines on every value it
is consulted at by `pCircle` (three points on the circle of center
`(0,0)` and radius `5`): the solver returns the true center, `sqrt 25 =
5`, the polar angle of `(5,0)` is `0` and of `(-5,0)` is `π`, with `π`
represented by the rational stand-in `355/113`. -/
def envCircle : NumEnv where
  solve := fun _ _ _ => ((0, 0), 1)
  sqrt := fun q => if q = 25 then 5 else 0
  atan2 := fun _ x => if x < 0 then 355 / 113 else 0
  pi := 355 / 113

/-- Three points sampled exactly on the circle of center `(0,0)`,
radius `5`. -/
def pCircle : List Vertex := [(5, 0, 0), (0, 5, 0), (-5, 0, 0)]

/-- Environment agreeing with the real `sqrt` on the squared distances
(`25` and `100`) of the points of `pLine3` from the solver's center. -/
def envLine : NumEnv where
  solve := fun _ _ _ => ((0, 0), 1)
  sqrt := fun q => if q = 25 then 5 else if q = 100 then 10 else 0
  atan2 := fun _ _ => 0
  pi := 1

/-- Three points whose circle fit residual under `envLine` is large
(`50/3`), so every window is rejected. -/
def pLine3 : List Vertex := [(3, 4, 0), (6, 8, 0), (5, 0, 0)]

/-- A two-point polyline. -/
def pLine2 : List Vertex := [(0, 0, 0), (1, 1, 0)]

/-- Collinear input fed to the Circle Fitter: the solver field returns the
centroid `(1, 0)` of `(0,0), (1,0), (2,0)` together with `ier = 5`
(scipy's "not converged"); `sqrt` agrees with the real square root on the
squared distances `1` and `0` it is consulted at. -/
def envCollinear : NumEnv where
  solve := fun _ _ _ => ((1, 0), 5)
  sqrt := fun q => if q = 1 then 1 else 0
  atan2 := fun _ _ => 0
  pi := 1

/-- Same as `envCollinear` but with the solver reporting `ier = 1`
(converged). -/
def envCollinearConv : NumEnv where
  solve := fun _ _ _ => ((1, 0), 1)
  sqrt := fun q => if q = 1 then 1 else 0
  atan2 := fun _ _ => 0
  pi := 1

/-- A whitespace-only glyph buffer: two extent characters and no point
data. -/
def strokeWS : List Char := ['R', 'f']

/-- A one-stroke glyph buffer (no pen-lift marker): two points with
x-coordinates `0` and `3`. -/
def strokeYR : List Char := ['R', 'R', 'Y', 'R']

/-- A stroke decoding to x-coordinates `3, 0, 3/7`: the running minimum
passes through exactly `0` and restarts. -/
def strokeRestart : List Char := ['Y', 'R', 'R', 'R', 'S', 'R']

/-- A stroke decoding to x-coordinates `0, 0`. -/
def strokeZeros : List Char := ['R', 'R', 'R', 'R']

/-- A stroke decoding to x-coordinates `3, 3` (no prefix minimum is 0). -/
def strokeNoZero : List Char := ['Y', 'R', 'Y', 'R']

/-! ### Lemmas -/

theorem findArc_eq_none_of_lt (E : NumEnv) (s : List Vertex) (k : ℕ)
    (h : k < 3) : findArc E s k = none := by
  match k, h with
  | 0, _ => rfl
  | 1, _ => rfl
  | 2, _ => rfl

theorem findArc_some (E : NumEnv) (s : List Vertex) :
    ∀ k0 arc k, findArc E s k0 = some (arc, k) →
      3 ≤ k ∧ k ≤ k0 ∧ try_convert_polyline_to_arc E (s.take k) = some arc := by
  intro k0
  induction k0 with
  | zero => intro arc k h; simp [findArc] at h
  | succ m ih =>
    intro arc k h
    rw [findArc] at h
    by_cases hm : m + 1 < 3
    · simp [hm] at h
    · simp only [if_neg hm] at h
      cases htry : try_convert_polyline_to_arc E (s.take (m + 1)) with
      | some a =>
        rw [htry] at h
        obtain ⟨rfl, rfl⟩ : a = arc ∧ m + 1 = k := by
          simpa using h
        exact ⟨by omega, le_refl _, htry⟩
      | none =>
        rw [htry] at h
        have := ih arc k h
        exact ⟨this.1, by omega, this.2.2⟩

theorem arcsLoop_nil (E : NumEnv) : arcsLoop E [] = [] := by
  rw [arcsLoop]

theorem arcsLoop_cons_some (E : NumEnv) (v : Vertex) (rest : List Vertex)
    (arc : List Vertex) (k : ℕ)
    (hf : findArc E (v :: rest) (v :: rest).length = some (arc, k)) :
    arcsLoop E (v :: rest) = arc ++ arcsLoop E ((v :: rest).drop (k - 1)) := by
  rw [arcsLoop]
  split
  · rename_i arc2 k2 hf2
    rw [hf] at hf2
    obtain ⟨rfl, rfl⟩ : arc2 = arc ∧ k2 = k := by simpa using hf2.symm
    rfl
  · rename_i hf2
    rw [hf] at hf2
    exact absurd hf2 (by simp)

theorem arcsLoop_cons_none (E : NumEnv) (v : Vertex) (rest : List Vertex)
    (hf : findArc E (v :: rest) (v :: rest).length = none) :
    arcsLoop E (v :: rest) = v :: arcsLoop E rest := by
  rw [arcsLoop]
  split
  · rename_i arc2 k2 hf2
    rw [hf] at hf2
    exact absurd hf2 (by simp)
  · rfl

theorem try_convert_eq_some_iff (E : NumEnv) (q : List Vertex) (l : List Vertex) :
    try_convert_polyline_to_arc E q = some l ↔
      windowResidual E q / (q.length : ℚ) ≤ 1 / 100 ∧ l = specArcEmit E q := by
  unfold try_convert_polyline_to_arc specArcEmit windowResidual windowCenter
  by_cases h : (leastsq_circle E (q.map (fun v => v.1))
      (q.map (fun v => v.2.1))).2.2.2 / (q.length : ℚ) > 1 / 100
  · simp only [if_pos h]
    constructor
    · intro hh; exact absurd hh (by simp)
    · rintro ⟨hres, -⟩; exact absurd hres (not_le.mpr h)
  · simp only [if_neg h]
    constructor
    · intro hh
      exact ⟨not_lt.mp h, (Option.some.inj hh).symm⟩
    · rintro ⟨-, rfl⟩; rfl

theorem try_convert_eq_none_iff (E : NumEnv) (q : List Vertex) :
    try_convert_polyline_to_arc E q = none ↔
      1 / 100 < windowResidual E q / (q.length : ℚ) := by
  unfold try_convert_polyline_to_arc windowResidual
  by_cases h : (leastsq_circle E (q.map (fun v => v.1))
      (q.map (fun v => v.2.1))).2.2.2 / (q.length : ℚ) > 1 / 100
  · simp only [if_pos h]
    simpa using h
  · simp only [if_neg h]
    simpa using h

theorem findArc_eq_some_iff (E : NumEnv) (s : List Vertex) :
    ∀ k0 arc k, findArc E s k0 = some (arc, k) ↔
      (3 ≤ k ∧ k ≤ k0 ∧ try_convert_polyline_to_arc E (s.take k) = some arc ∧
        ∀ j, k < j → j ≤ k0 → try_convert_polyline_to_arc E (s.take j) = none) := by
  intro k0
  induction k0 with
  | zero =>
    intro arc k
    simp only [findArc]
    constructor
    · intro h; exact absurd h (by simp)
    · intro h; omega
  | succ m ih =>
    intro arc k
    rw [findArc]
    by_cases hm : m + 1 < 3
    · simp only [if_pos hm]
      constructor
      · intro h; exact absurd h (by simp)
      · intro h; omega
    · simp only [if_neg hm]
      cases htry : try_convert_polyline_to_arc E (s.take (m + 1)) with
      | some a =>
        constructor
        · intro h
          have hinj : a = arc ∧ m + 1 = k := by simpa using h
          obtain ⟨rfl, rfl⟩ := hinj
          exact ⟨by omega, le_refl _, htry, by intro j h1 h2; omega⟩
        · rintro ⟨h3, hk, hsome, hmax⟩
          rcases Nat.lt_or_ge k (m + 1) with hlt | hge
          · rw [hmax (m + 1) hlt (le_refl _)] at htry
            exact absurd htry (by simp)
          · have : k = m + 1 := by omega
            subst this
            rw [htry] at hsome
            simp at hsome
            simp [hsome]
      | none =>
        rw [ih arc k]
        constructor
        · rintro ⟨h3, hk, hsome, hmax⟩
          refine ⟨h3, by omega, hsome, ?_⟩
          intro j h1 h2
          rcases Nat.lt_or_ge m j with hj | hj
          · have : j = m + 1 := by omega
            subst this; exact htry
          · exact hmax j h1 hj
        · rintro ⟨h3, hk, hsome, hmax⟩
          have hkm : k ≤ m := by
            rcases Nat.lt_or_ge k (m + 1) with hlt | hge
            · omega
            · have : k = m + 1 := by omega
              subst this
              rw [htry] at hsome
              exact absurd hsome (by simp)
          exact ⟨h3, hkm, hsome, fun j h1 h2 => hmax j h1 (by omega)⟩

theorem findArc_eq_none_iff (E : NumEnv) (s : List Vertex) :
    ∀ k0, findArc E s k0 = none ↔
      ∀ j, 3 ≤ j → j ≤ k0 → try_convert_polyline_to_arc E (s.take j) = none := by
  intro k0
  induction k0 with
  | zero => simp [findArc]; omega
  | succ m ih =>
    rw [findArc]
    by_cases hm : m + 1 < 3
    · simp only [if_pos hm]
      constructor
      · intro _ j h1 h2
        omega
      · intro _; trivial
    · simp only [if_neg hm]
      cases htry : try_convert_polyline_to_arc E (s.take (m + 1)) with
      | some a =>
        constructor
        · intro h; exact absurd h (by simp)
        · intro h
          rw [h (m + 1) (by omega) (le_refl _)] at htry
          exact absurd htry (by simp)
      | none =>
        rw [ih]
        constructor
        · intro h j h1 h2
          rcases Nat.lt_or_ge m j with hj | hj
          · have : j = m + 1 := by omega
            subst this; exact htry
          · exact h j h1 hj
        · intro h j h1 h2
          exact h j h1 (by omega)

theorem specArcEmit_ne_nil (E : NumEnv) (q : List Vertex) : specArcEmit E q ≠ [] := by
  simp [specArcEmit]

theorem arcsLoop_ne_nil (E : NumEnv) (s : List Vertex) (h : s ≠ []) :
    arcsLoop E s ≠ [] := by
  cases s with
  | nil => exact absurd rfl h
  | cons v rest =>
    cases hf : findArc E (v :: rest) (v :: rest).length with
    | some ak =>
      obtain ⟨arc, k⟩ := ak
      rw [arcsLoop_cons_some E v rest arc k hf]
      have htry := (findArc_some E (v :: rest) _ arc k hf).2.2
      rw [try_convert_eq_some_iff] at htry
      rw [htry.2]
      simp [specArcEmit]
    | none =>
      rw [arcsLoop_cons_none E v rest hf]
      simp

theorem cons_getLast?_of_ne_nil {α : Type} (a : α) (l : List α) (h : l ≠ []) :
    (a :: l).getLast? = l.getLast? := by
  have heq : a :: l = [a] ++ l := rfl
  rw [heq, List.getLast?_append]
  obtain ⟨b, hb⟩ := Option.isSome_iff_exists.mp (List.getLast?_isSome.mpr h)
  rw [hb]
  rfl

theorem drop_getLast?_of_ne_nil {α : Type} (l : List α) (j : ℕ)
    (h : l.drop j ≠ []) : (l.drop j).getLast? = l.getLast? := by
  conv_rhs => rw [← List.take_append_drop j l]
  rw [List.getLast?_append]
  obtain ⟨b, hb⟩ := Option.isSome_iff_exists.mp (List.getLast?_isSome.mpr h)
  rw [hb]
  rfl

theorem arcsLoop_getLast? (E : NumEnv) :
    ∀ n (s : List Vertex), s.length ≤ n → s ≠ [] →
      (arcsLoop E s).getLast? = s.getLast? := by
  intro n
  induction n with
  | zero =>
    intro s hlen hne
    cases s with
    | nil => exact absurd rfl hne
    | cons v rest => simp at hlen
  | succ n ih =>
    intro s hlen hne
    cases s with
    | nil => exact absurd rfl hne
    | cons v rest =>
      cases hf : findArc E (v :: rest) (v :: rest).length with
      | some ak =>
        obtain ⟨arc, k⟩ := ak
        rw [arcsLoop_cons_some E v rest arc k hf]
        obtain ⟨h3, hk, -⟩ := findArc_some E (v :: rest) _ arc k hf
        have hdlen : ((v :: rest).drop (k - 1)).length = (v :: rest).length - (k - 1) :=
          List.length_drop _ _
        have hdne : (v :: rest).drop (k - 1) ≠ [] := by
          intro hcon
          rw [hcon] at hdlen
          simp only [List.length_nil, List.length_cons] at hdlen
          simp only [List.length_cons] at hk
          omega
        have hrec := ih ((v :: rest).drop (k - 1))
          (by rw [hdlen]; simp only [List.length_cons] at hlen ⊢; omega) hdne
        rw [List.getLast?_append, hrec, drop_getLast?_of_ne_nil _ _ hdne]
        obtain ⟨b, hb⟩ := Option.isSome_iff_exists.mp
          (List.getLast?_isSome.mpr (show (v :: rest) ≠ [] by simp))
        rw [hb]
        rfl
      | none =>
        rw [arcsLoop_cons_none E v rest hf]
        cases rest with
        | nil => rw [arcsLoop_nil]
        | cons w t =>
          have hrec := ih (w :: t)
            (by simp only [List.length_cons] at hlen ⊢; omega) (by simp)
          rw [cons_getLast?_of_ne_nil v _ (arcsLoop_ne_nil E _ (by simp)), hrec,
            cons_getLast?_of_ne_nil v _ (by simp)]

theorem arcsLoop_headI_coords (E : NumEnv) (s : List Vertex) (h : s ≠ []) :
    ((arcsLoop E s).headI.1, (arcsLoop E s).headI.2.1) = (s.headI.1, s.headI.2.1) := by
  cases s with
  | nil => exact absurd rfl h
  | cons v rest =>
    cases hf : findArc E (v :: rest) (v :: rest).length with
    | some ak =>
      obtain ⟨arc, k⟩ := ak
      rw [arcsLoop_cons_some E v rest arc k hf]
      obtain ⟨h3, hk, htry⟩ := findArc_some E (v :: rest) _ arc k hf
      rw [try_convert_eq_some_iff] at htry
      rw [htry.2]
      obtain ⟨k1, rfl⟩ : ∃ k1, k = k1 + 1 := ⟨k - 1, by omega⟩
      simp [specArcEmit, List.take_succ_cons]
    | none =>
      rw [arcsLoop_cons_none E v rest hf]
      simp

theorem arcsLoop_of_short (E : NumEnv) (s : List Vertex) (h : s.length < 3) :
    arcsLoop E s = s := by
  match s, h with
  | [], _ => exact arcsLoop_nil E
  | [a], _ =>
    rw [arcsLoop_cons_none E a [] (findArc_eq_none_of_lt _ _ _ (by simp)),
      arcsLoop_nil]
  | [a, b], _ =>
    rw [arcsLoop_cons_none E a [b] (findArc_eq_none_of_lt _ _ _ (by simp)),
      arcsLoop_cons_none E b [] (findArc_eq_none_of_lt _ _ _ (by simp)),
      arcsLoop_nil]

theorem arcsLoop_id_of_reject (E : NumEnv) :
    ∀ s : List Vertex,
      (∀ i k, 3 ≤ k → i + k ≤ s.length →
        1 / 100 < windowResidual E ((s.drop i).take k) / (k : ℚ)) →
      arcsLoop E s = s := by
  intro s
  induction s with
  | nil => intro _; exact arcsLoop_nil E
  | cons v rest ih =>
    intro hrej
    have hnone : findArc E (v :: rest) (v :: rest).length = none := by
      rw [findArc_eq_none_iff]
      intro j h3 hj
      rw [try_convert_eq_none_iff]
      have hlen : (((v :: rest) : List Vertex).take j).length = j := by
        rw [List.length_take]
        omega
      rw [hlen]
      have := hrej 0 j h3 (by omega)
      simpa using this
    rw [arcsLoop_cons_none E v rest hnone]
    congr 1
    apply ih
    intro i k h3 hik
    have := hrej (i + 1) k h3 (by simp only [List.length_cons]; omega)
    simpa using this

theorem segStep_holds (E : NumEnv) (p : List Vertex) (i : ℕ) (h : i < p.length) :
    SegStep E p i := by
  have hslen : (p.drop i).length = p.length - i := List.length_drop _ _
  have hcons : ∃ v rest, p.drop i = v :: rest := by
    cases hd : p.drop i with
    | nil =>
      exfalso
      have h0 : (p.drop i).length = 0 := by rw [hd]; rfl
      rw [hslen] at h0
      omega
    | cons v rest => exact ⟨v, rest, rfl⟩
  constructor
  · intro arc k hf
    have hchar := (findArc_eq_some_iff E (p.drop i) _ arc k).mp hf
    obtain ⟨h3, hk, htry, hmax⟩ := hchar
    rw [hslen] at hk
    have hik : i + k ≤ p.length := by omega
    have htake : ((p.drop i).take k).length = k := by
      rw [List.length_take, hslen]; omega
    rw [try_convert_eq_some_iff] at htry
    obtain ⟨hres, harc⟩ := htry
    rw [htake] at hres
    refine ⟨h3, hik, hres, ?_, harc, ?_⟩
    · intro j hj hjp
      have hnone := hmax j hj (by rw [hslen]; omega)
      rw [try_convert_eq_none_iff] at hnone
      have htakej : ((p.drop i).take j).length = j := by
        rw [List.length_take, hslen]; omega
      rwa [htakej] at hnone
    · obtain ⟨v, rest, hvr⟩ := hcons
      rw [hvr] at hf harc ⊢
      rw [arcsLoop_cons_some E v rest arc k hf, harc, ← hvr, List.drop_drop]
  · intro hf
    have hf0 := hf
    rw [findArc_eq_none_iff] at hf
    constructor
    · intro j h3 hjp
      have hnone := hf j h3 (by rw [hslen]; omega)
      rw [try_convert_eq_none_iff] at hnone
      have htakej : ((p.drop i).take j).length = j := by
        rw [List.length_take, hslen]; omega
      rwa [htakej] at hnone
    · obtain ⟨v, rest, hvr⟩ := hcons
      have hrest : rest = p.drop (i + 1) := by
        have hdd : (p.drop i).drop 1 = p.drop (i + 1) := List.drop_drop 1 i p
        rw [hvr] at hdd
        simpa using hdd
      rw [hvr] at hf0 ⊢
      rw [arcsLoop_cons_none E v rest hf0]
      simp only [List.headI_cons]
      rw [hrest]

/-- C9: a polyline with fewer than 3 points is returned unchanged by the
Arc Segmenter (same vertices, order, and annotations). -/
theorem C9_short_input_unchanged (E : NumEnv) (p : List Vertex)
    (h : p.length < 3) : convert_polyline_arcs E p = p :=
  arcsLoop_of_short E p h

theorem C9_witness :
    pLine2.length < 3 ∧ convert_polyline_arcs envZero pLine2 = pLine2 :=
  ⟨by decide, C9_short_input_unchanged envZero pLine2 (by decide)⟩

/-- C4: for an input of length ≥ 2 the segmenter's output has length ≥ 1,
its first vertex has the coordinates of the first input point, and its
last vertex has the coordinates of the last input point. -/
theorem C4_endpoints_preserved (E : NumEnv) (p : List Vertex)
    (h : 2 ≤ p.length) :
    1 ≤ (convert_polyline_arcs E p).length ∧
    ((convert_polyline_arcs E p).headI.1, (convert_polyline_arcs E p).headI.2.1) =
      (p.headI.1, p.headI.2.1) ∧
    (convert_polyline_arcs E p).getLast?.map (fun v => (v.1, v.2.1)) =
      p.getLast?.map (fun v => (v.1, v.2.1)) := by
  have hne : p ≠ [] := by
    intro hcon
    rw [hcon] at h
    simp at h
  refine ⟨?_, arcsLoop_headI_coords E p hne, ?_⟩
  · exact List.length_pos.mpr (arcsLoop_ne_nil E p hne)
  · rw [show (convert_polyline_arcs E p).getLast? = p.getLast? from
      arcsLoop_getLast? E p.length p (le_refl _) hne]

theorem C4_witness :
    2 ≤ pLine2.length ∧
    (1 ≤ (convert_polyline_arcs envZero pLine2).length ∧
      ((convert_polyline_arcs envZero pLine2).headI.1,
        (convert_polyline_arcs envZero pLine2).headI.2.1) =
        (pLine2.headI.1, pLine2.headI.2.1) ∧
      (convert_polyline_arcs envZero pLine2).getLast?.map (fun v => (v.1, v.2.1)) =
        pLine2.getLast?.map (fun v => (v.1, v.2.1))) :=
  ⟨by decide, C4_endpoints_preserved envZero pLine2 (by decide)⟩

/-- C5: when no window of ≥ 3 consecutive output points passes the
acceptance test (`residual / k ≤ 0.01`), the segmenter is idempotent:
applying it to its own output returns that output unchanged. -/
theorem C5_idempotent (E : NumEnv) (p : List Vertex)
    (h : ∀ i k, 3 ≤ k → i + k ≤ (convert_polyline_arcs E p).length →
      1 / 100 < windowResidual E
        (((convert_polyline_arcs E p).drop i).take k) / (k : ℚ)) :
    convert_polyline_arcs E (convert_polyline_arcs E p) =
      convert_polyline_arcs E p :=
  arcsLoop_id_of_reject E _ h

theorem C5_witness :
    (∀ i k, 3 ≤ k → i + k ≤ (convert_polyline_arcs envLine pLine3).length →
      1 / 100 < windowResidual envLine
        (((convert_polyline_arcs envLine pLine3).drop i).take k) / (k : ℚ)) ∧
    convert_polyline_arcs envLine (convert_polyline_arcs envLine pLine3) =
      convert_polyline_arcs envLine pLine3 := by
  have hseg : convert_polyline_arcs envLine pLine3 = pLine3 := by
    show arcsLoop envLine ((3, 4, 0) :: [(6, 8, 0), (5, 0, 0)]) = _
    rw [arcsLoop_cons_none envLine _ _ (by decide),
      arcsLoop_cons_none envLine _ _ (by decide),
      arcsLoop_cons_none envLine _ _ (by decide), arcsLoop_nil]
    rfl
  have hyp : ∀ i k, 3 ≤ k →
      i + k ≤ (convert_polyline_arcs envLine pLine3).length →
      1 / 100 < windowResidual envLine
        (((convert_polyline_arcs envLine pLine3).drop i).take k) / (k : ℚ) := by
    intro i k h3 hik
    rw [hseg] at hik ⊢
    have hlen : pLine3.length = 3 := by decide
    rw [hlen] at hik
    obtain ⟨rfl, rfl⟩ : i = 0 ∧ k = 3 := by omega
    decide
  exact ⟨hyp, C5_idempotent envLine pLine3 hyp⟩

/-- C3: one step of the segmenter at any in-range cursor position behaves
exactly as specified: candidate lengths descend from `n - i` to `3`, the
first (largest) `k` with `residual / k ≤ 0.01` is accepted, acceptance
emits the two `specArcEmit` vertices and advances the cursor to
`i + k - 1`, and rejection of all candidates emits the single vertex at
the cursor and advances by one. -/
theorem C3_greedy_step (E : NumEnv) (p : List Vertex) (i : ℕ)
    (h : i < p.length) : SegStep E p i :=
  segStep_holds E p i h

theorem C3_witness : 0 < pCircle.length ∧ SegStep envCircle pCircle 0 :=
  ⟨by decide, C3_greedy_step envCircle pCircle 0 (by decide)⟩

/-- C1 (code bug): three points sampled exactly on a circle, with a
numeric environment agreeing with the real routines on all consulted
values.  The full window is accepted (`residual / 3 = 0 ≤ 0.01`), yet
`convert_polyline_arcs` emits **3** vertices, not 2: after the accepted
run the cursor lands on the last index, the loop runs one more iteration,
and the last point — already emitted as the run's endpoint — is emitted
again. -/
theorem C1_full_circle_emits_three_vertices :
    windowResidual envCircle pCircle / (pCircle.length : ℚ) ≤ 1 / 100 ∧
    convert_polyline_arcs envCircle pCircle =
      [(5, 0, 9), (-5, 0, 0), (-5, 0, 0)] ∧
    (convert_polyline_arcs envCircle pCircle).length = 3 := by
  have heval : convert_polyline_arcs envCircle pCircle =
      [(5, 0, 9), (-5, 0, 0), (-5, 0, 0)] := by
    show arcsLoop envCircle ((5, 0, 0) :: [(0, 5, 0), (-5, 0, 0)]) = _
    rw [arcsLoop_cons_some envCircle _ _ [(5, 0, 9), (-5, 0, 0)] 3 (by decide)]
    show _ ++ arcsLoop envCircle ((-5, 0, 0) :: []) = _
    rw [arcsLoop_cons_none envCircle _ _ (by decide), arcsLoop_nil]
    rfl
  exact ⟨by decide, heval, by rw [heval]; rfl⟩

theorem convert_polylines_fold (E : NumEnv) :
    ∀ (segs : List (List Char)) (acc : List (List Vertex)) (mn mx : Option ℚ),
      segs.foldl
        (fun st p =>
          if 0 < p.length then
            let r := convert_polyline p
            (st.1 ++ [r.1, convert_polyline_arcs E r.1],
             pyUpdTot min r.2.1 st.2.1,
             pyUpdTot max r.2.2 st.2.2)
          else st) (acc, mn, mx) =
      (acc ++ (segs.filter (fun p => decide (0 < p.length))).flatMap
          (fun p => [(convert_polyline p).1,
            convert_polyline_arcs E (convert_polyline p).1]),
       pyFoldTot min ((segs.filter (fun p => decide (0 < p.length))).map
          (fun p => (convert_polyline p).2.1)) mn,
       pyFoldTot max ((segs.filter (fun p => decide (0 < p.length))).map
          (fun p => (convert_polyline p).2.2)) mx) := by
  intro segs
  induction segs with
  | nil => intro acc mn mx; simp [pyFoldTot]
  | cons q segs ih =>
    intro acc mn mx
    by_cases hq : 0 < q.length
    · have hd : decide (0 < q.length) = true := by simpa using hq
      simp only [List.foldl_cons, if_pos hq, List.filter_cons, hd, if_true,
        List.flatMap_cons, List.map_cons]
      rw [ih]
      simp [pyFoldTot, List.append_assoc]
    · have hd : decide (0 < q.length) = false := by simpa using hq
      simp only [List.foldl_cons, if_neg hq, List.filter_cons, hd,
        Bool.false_eq_true, if_false]
      exact ih acc mn mx

theorem convert_polylines_eq (E : NumEnv) (h : List Char) :
    convert_polylines E h =
      ((keptSegs h).flatMap (fun p => [(convert_polyline p).1,
          convert_polyline_arcs E (convert_polyline p).1]),
       pyFoldTot min ((keptSegs h).map (fun p => (convert_polyline p).2.1)) none,
       pyFoldTot max ((keptSegs h).map (fun p => (convert_polyline p).2.2)) none) := by
  unfold convert_polylines keptSegs
  rw [convert_polylines_fold E (splitOnPenLift h) [] none none]
  simp

/-- C2 (code bug): `convert_polylines` appends **both** the raw decoded
polyline and its arc-converted form for every kept stroke.  For the
single-stroke buffer `strokeYR` (one pen stroke, two points, below the
arc threshold so its segmented form equals the raw form) the glyph body
receives two identical polylines instead of one. -/
theorem C2_stroke_contributes_two_polylines :
    (splitOnPenLift strokeYR).length = 1 ∧
    (convert_polylines envZero strokeYR).1 =
      [[(0, 27 / 7, 0), (3, 27 / 7, 0)], [(0, 27 / 7, 0), (3, 27 / 7, 0)]] := by
  refine ⟨by decide, ?_⟩
  rw [convert_polylines_eq]
  have h1 : keptSegs strokeYR = [strokeYR] := by decide
  have h2 : (convert_polyline strokeYR).1 = [(0, 27 / 7, 0), (3, 27 / 7, 0)] := by
    decide
  rw [h1]
  simp only [List.flatMap_cons, List.flatMap_nil, List.append_nil]
  rw [h2, show convert_polyline_arcs envZero [(0, 27 / 7, 0), (3, 27 / 7, 0)] =
    [(0, 27 / 7, 0), (3, 27 / 7, 0)] from arcsLoop_of_short envZero _ (by decide)]

/-- C6 counterexample: on collinear input `(0,0), (1,0), (2,0)` — with
the external solver reporting `ier = 5` ("not converged") — the embedded
`leastsq_circle` does not fail with any dedicated error: it silently
returns the plain fit `(center (1,0), radius 2/3, residual 2/3)`, and the
result is identical to what it returns when the solver reports `ier = 1`,
because the convergence flag is bound and never inspected. -/
theorem C6_counterexample :
    leastsq_circle envCollinear [0, 1, 2] [0, 0, 0] = (1, 0, 2 / 3, 2 / 3) ∧
    (envCollinear.solve [0, 1, 2] [0, 0, 0] (1, 0)).2 = 5 ∧
    leastsq_circle envCollinear [0, 1, 2] [0, 0, 0] =
      leastsq_circle envCollinearConv [0, 1, 2] [0, 0, 0] :=
  ⟨by decide, by decide, by decide⟩

/-- C6 (amended): the Circle Fitter has no failure path at all — its
result depends only on the solver's center output (the `ier` convergence
flag is ignored) and the `sqrt` routine, and the Arc Segmenter's only
rejection mechanism is the residual test `residual / k > 0.01`; a window
of fewer than 3 points never reaches the fitter because candidate run
lengths satisfy `k ≥ 3`. -/
theorem C6_fitter_never_fails :
    (∀ (E F : NumEnv) (x y : List ℚ),
      (∀ a b c, (E.solve a b c).1 = (F.solve a b c).1) → E.sqrt = F.sqrt →
      leastsq_circle E x y = leastsq_circle F x y) ∧
    (∀ (E : NumEnv) (q : List Vertex),
      try_convert_polyline_to_arc E q = none ↔
        1 / 100 < windowResidual E q / (q.length : ℚ)) := by
  constructor
  · intro E F x y hsolve hsqrt
    simp only [leastsq_circle, calc_R, hsolve, hsqrt]
  · intro E q
    exact try_convert_eq_none_iff E q

theorem C6_witness :
    leastsq_circle envCollinear [0, 1, 2] [0, 0, 0] =
      leastsq_circle envCollinearConv [0, 1, 2] [0, 0, 0] :=
  C6_fitter_never_fails.1 envCollinear envCollinearConv [0, 1, 2] [0, 0, 0]
    (fun _ _ _ => rfl) rfl

/-- C8: for a glyph whose decoded polyline list is empty, `convert_glyph`
emits the header followed by `~` and the formatted advance width
`max(right - left - 3.26, 0)`, with the extents decoded from the first
two characters of the buffer; a negative pre-clamp value yields exactly
`0` (serialized as `"0"`), and extents `left = 2.0`, `right = 6.0` give
`0.74`. -/
theorem C8_whitespace_advance (E : NumEnv) (cp : ℕ) (h : List Char)
    (hemp : (convert_polylines E (h.drop 2)).1 = []) :
    convert_glyph E cp h =
      "[" ++ hex4 cp ++ "] " ++ String.singleton (Char.ofNat cp) ++ "\n" ++ "~" ++
        format_number (max (convert_x (h.getD 1 'R') - convert_x (h.getD 0 'R')
          - 326 / 100) 0) ∧
    (convert_x (h.getD 1 'R') - convert_x (h.getD 0 'R') - 326 / 100 < 0 →
      format_number (max (convert_x (h.getD 1 'R') - convert_x (h.getD 0 'R')
        - 326 / 100) 0) = "0") ∧
    max ((6 : ℚ) - 2 - 326 / 100) 0 = 74 / 100 := by
  refine ⟨?_, ?_, by decide⟩
  · simp only [convert_glyph]
    rw [hemp]
    norm_num
  · intro hneg
    rw [max_eq_right hneg.le]
    decide

theorem C8_witness :
    (convert_polylines envZero (strokeWS.drop 2)).1 = [] ∧
    (convert_glyph envZero 65 strokeWS =
      "[" ++ hex4 65 ++ "] " ++ String.singleton (Char.ofNat 65) ++ "\n" ++ "~" ++
        format_number (max (convert_x (strokeWS.getD 1 'R')
          - convert_x (strokeWS.getD 0 'R') - 326 / 100) 0) ∧
    (convert_x (strokeWS.getD 1 'R') - convert_x (strokeWS.getD 0 'R')
        - 326 / 100 < 0 →
      format_number (max (convert_x (strokeWS.getD 1 'R')
        - convert_x (strokeWS.getD 0 'R') - 326 / 100) 0) = "0") ∧
    max ((6 : ℚ) - 2 - 326 / 100) 0 = 74 / 100) :=
  ⟨by decide, C8_whitespace_advance envZero 65 strokeWS (by decide)⟩

/-! ### Digit lemmas for the formatter -/

theorem digitsAux_congr :
    ∀ n f g, n ≤ f → n ≤ g → digitsAux f n = digitsAux g n := by
  intro n
  induction n using Nat.strong_induction_on with
  | _ n ih =>
    intro f g hf hg
    cases n with
    | zero => cases f <;> cases g <;> rfl
    | succ m =>
      cases f with
      | zero => omega
      | succ f =>
        cases g with
        | zero => omega
        | succ g =>
          show (m + 1) % 10 :: digitsAux f ((m + 1) / 10) =
            (m + 1) % 10 :: digitsAux g ((m + 1) / 10)
          congr 1
          exact ih ((m + 1) / 10) (by omega) f g (by omega) (by omega)

theorem natDigits_cons (n : ℕ) (h : n ≠ 0) :
    natDigits n = n % 10 :: natDigits (n / 10) := by
  obtain ⟨m, rfl⟩ := Nat.exists_eq_succ_of_ne_zero h
  show digitsAux (m + 1) (m + 1) = _
  rw [show digitsAux (m + 1) (m + 1) = (m + 1) % 10 :: digitsAux m ((m + 1) / 10)
    from rfl]
  congr 1
  exact digitsAux_congr ((m + 1) / 10) m ((m + 1) / 10) (by omega) (le_refl _)

theorem natDigits_ne_nil (n : ℕ) (h : n ≠ 0) : natDigits n ≠ [] := by
  rw [natDigits_cons n h]
  simp

theorem natDigits_mul10 (r : ℕ) (h : r ≠ 0) :
    natDigits (10 * r) = 0 :: natDigits r := by
  rw [natDigits_cons (10 * r) (by positivity), Nat.mul_mod_right,
    Nat.mul_div_cancel_left r (by norm_num : (0:ℕ) < 10)]

theorem natDigits_length_le (k : ℕ) :
    ∀ n, n < 10 ^ k → (natDigits n).length ≤ k := by
  induction k with
  | zero =>
    intro n h
    have : n = 0 := by simpa using h
    subst this
    rfl
  | succ k ih =>
    intro n h
    by_cases hn : n = 0
    · subst hn
      have h0 : natDigits 0 = [] := rfl
      rw [h0]
      simp
    · rw [natDigits_cons n hn]
      simp only [List.length_cons]
      have hlt : n < 10 * 10 ^ k := by rw [pow_succ] at h; omega
      have := ih (n / 10) (Nat.div_lt_of_lt_mul hlt)
      omega

theorem le_natDigits_length (k : ℕ) :
    ∀ n, 10 ^ k ≤ n → k + 1 ≤ (natDigits n).length := by
  induction k with
  | zero =>
    intro n h
    have hn : n ≠ 0 := by simp at h; omega
    rw [natDigits_cons n hn]
    simp
  | succ k ih =>
    intro n h
    have hn : n ≠ 0 := by
      have : 0 < 10 ^ (k + 1) := by positivity
      omega
    rw [natDigits_cons n hn]
    simp only [List.length_cons]
    have h10 : 10 ^ k ≤ n / 10 := by
      rw [Nat.le_div_iff_mul_le (by norm_num : (0:ℕ) < 10), ← pow_succ]
      exact h
    have := ih (n / 10) h10
    omega

theorem natDigits_length_eq (k n : ℕ) (h1 : 10 ^ k ≤ n) (h2 : n < 10 ^ (k + 1)) :
    (natDigits n).length = k + 1 :=
  le_antisymm (natDigits_length_le (k + 1) n h2) (le_natDigits_length k n h1)

theorem roundHalfEven_intCast (z : ℤ) : roundHalfEven (z : ℚ) = z := by
  unfold roundHalfEven
  rw [Int.floor_intCast]
  norm_num

theorem padDigits_mul10 (e r : ℕ) :
    padDigits (e + 1) (10 * r) = padDigits e r ++ ['0'] := by
  by_cases hr : r = 0
  · subst hr
    have h0 : natDigits 0 = [] := rfl
    simp [padDigits, h0, List.replicate_succ']
  · rw [padDigits, padDigits, natDigits_mul10 r hr]
    simp only [List.length_cons, List.map_cons, List.reverse_cons]
    rw [show (e + 1) - ((natDigits r).length + 1) = e - (natDigits r).length
      from by omega]
    rw [← List.append_assoc]
    rfl

theorem stripTrailingZeros_append_zero (s : List Char) (h : '.' ∈ s) :
    stripTrailingZeros (s ++ ['0']) = stripTrailingZeros s := by
  unfold stripTrailingZeros
  rw [if_pos (by simp [h]), if_pos h]
  rw [show (s ++ ['0']).reverse = '0' :: s.reverse from by simp]
  rw [List.dropWhile_cons]
  norm_num

theorem hundredths_mul_pow (M : ℕ) (d : ℕ) (hd : 2 ≤ d) :
    ((M : ℚ) / 100) * 10 ^ d = ((M * 10 ^ (d - 2) : ℕ) : ℚ) := by
  obtain ⟨d2, rfl⟩ : ∃ d2, d = d2 + 2 := ⟨d - 2, by omega⟩
  push_cast
  rw [pow_add]
  field_simp
  ring

theorem roundHalfEven_hundredths (M : ℕ) (d : ℕ) (hd : 2 ≤ d) :
    (roundHalfEven (((M : ℚ) / 100) * 10 ^ d)).toNat = M * 10 ^ (d - 2) := by
  rw [hundredths_mul_pow M d hd]
  rw [show ((M * 10 ^ (d - 2) : ℕ) : ℚ) = (((M * 10 ^ (d - 2) : ℕ) : ℤ) : ℚ)
    from by push_cast; ring]
  rw [roundHalfEven_intCast]
  exact Int.toNat_natCast _

theorem renderFixed_strip_succ (M : ℕ) (e : ℕ) (he : 2 ≤ e) :
    stripTrailingZeros (renderFixed ((M : ℚ) / 100) (e + 1)) =
      stripTrailingZeros (renderFixed ((M : ℚ) / 100) e) := by
  obtain ⟨e2, rfl⟩ : ∃ e2, e = e2 + 2 := ⟨e - 2, by omega⟩
  have hn1 : (roundHalfEven (((M : ℚ) / 100) * 10 ^ (e2 + 2 + 1))).toNat =
      10 * (M * 10 ^ e2) := by
    rw [roundHalfEven_hundredths M (e2 + 2 + 1) (by omega)]
    rw [show e2 + 2 + 1 - 2 = e2 + 1 from by omega, pow_succ]
    ring
  have hn0 : (roundHalfEven (((M : ℚ) / 100) * 10 ^ (e2 + 2))).toNat =
      M * 10 ^ e2 := by
    rw [roundHalfEven_hundredths M (e2 + 2) (by omega)]
    rw [show e2 + 2 - 2 = e2 from by omega]
  unfold renderFixed
  rw [if_neg (by omega : ¬e2 + 2 + 1 = 0), if_neg (by omega : ¬e2 + 2 = 0)]
  rw [hn1, hn0]
  have hdiv : 10 * (M * 10 ^ e2) / 10 ^ (e2 + 2 + 1) = M * 10 ^ e2 / 10 ^ (e2 + 2) := by
    rw [show (10 : ℕ) ^ (e2 + 2 + 1) = 10 * 10 ^ (e2 + 2) from by rw [pow_succ]; ring]
    exact Nat.mul_div_mul_left _ _ (by norm_num)
  have hmod : 10 * (M * 10 ^ e2) % 10 ^ (e2 + 2 + 1) =
      10 * (M * 10 ^ e2 % 10 ^ (e2 + 2)) := by
    rw [show (10 : ℕ) ^ (e2 + 2 + 1) = 10 * 10 ^ (e2 + 2) from by rw [pow_succ]; ring]
    exact Nat.mul_mod_mul_left _ _ _
  rw [hdiv, hmod, padDigits_mul10]
  rw [show renderNat (M * 10 ^ e2 / 10 ^ (e2 + 2)) ++
      '.' :: (padDigits (e2 + 2) (M * 10 ^ e2 % 10 ^ (e2 + 2)) ++ ['0']) =
    (renderNat (M * 10 ^ e2 / 10 ^ (e2 + 2)) ++
      '.' :: padDigits (e2 + 2) (M * 10 ^ e2 % 10 ^ (e2 + 2))) ++ ['0'] from by
    simp]
  rw [stripTrailingZeros_append_zero _ (by simp)]

theorem renderFixed_strip_to_two (M : ℕ) :
    ∀ d, 2 ≤ d →
      stripTrailingZeros (renderFixed ((M : ℚ) / 100) d) =
        stripTrailingZeros (renderFixed ((M : ℚ) / 100) 2) := by
  intro d
  induction d with
  | zero => intro hd; omega
  | succ e ih =>
    intro hd
    rcases Nat.lt_or_ge e 2 with h2 | h2
    · rw [show e + 1 = 2 from by omega]
    · rw [renderFixed_strip_succ M e h2]
      exact ih h2

theorem one_div_den_le (a : ℚ) (ha : 0 < a) : 1 / (a.den : ℚ) ≤ a := by
  have hnum : (1 : ℚ) ≤ (a.num : ℚ) := by
    have := Rat.num_pos.mpr ha
    exact_mod_cast this
  have hden : (0 : ℚ) < (a.den : ℚ) := by
    exact_mod_cast a.den_pos
  conv_rhs => rw [← Rat.num_div_den a]
  gcongr

theorem log10floor_bounds_big (a : ℚ) (h1 : 1 ≤ a) (h2 : a < 10000) :
    0 ≤ log10floor a ∧ log10floor a ≤ 3 := by
  unfold log10floor
  rw [if_pos h1]
  constructor
  · have hfl : 1 ≤ ⌊a⌋ := Int.le_floor.mpr (by exact_mod_cast h1)
    have htn : ⌊a⌋.toNat ≠ 0 := by omega
    have := le_natDigits_length 0 ⌊a⌋.toNat
      (by simpa using Nat.one_le_iff_ne_zero.mpr htn)
    omega
  · have hfl : ⌊a⌋ < 10000 := Int.floor_lt.mpr (by exact_mod_cast h2)
    have hfl0 : 0 ≤ ⌊a⌋ := Int.le_floor.mpr (by exact_mod_cast le_trans zero_le_one h1)
    have hpow : (10 : ℕ) ^ 4 = 10000 := by norm_num
    have htn : ⌊a⌋.toNat < 10 ^ 4 := by omega
    have := natDigits_length_le 4 ⌊a⌋.toNat htn
    omega

theorem log10floor_small_neg1 (a : ℚ) (h1 : 1 / 10 ≤ a) (h2 : a < 1) :
    log10floor a = -1 := by
  unfold log10floor
  rw [if_neg (by linarith : ¬(1 : ℚ) ≤ a)]
  obtain ⟨D1, hD⟩ : ∃ D1, (natDigits a.den).length = D1 + 1 := by
    have hden : a.den ≠ 0 := by
      have := a.den_pos
      omega
    have := le_natDigits_length 0 a.den (by simpa using Nat.one_le_iff_ne_zero.mpr hden)
    exact ⟨(natDigits a.den).length - 1, by omega⟩
  rw [hD]
  rw [show D1 + 1 + 2 = (D1 + 2) + 1 from by omega, List.range_succ_eq_map,
    List.range_succ_eq_map, List.map_cons]
  rw [List.find?_cons_of_neg _ (by
    simp only [pow_zero, mul_one, decide_eq_true_eq]
    exact not_le.mpr (by linarith))]
  rw [List.find?_cons_of_pos _ (by
    simp only [pow_one, decide_eq_true_eq, Nat.succ_eq_add_one]
    norm_num
    linarith)]
  rfl

theorem log10floor_small_neg2 (a : ℚ) (h1 : 1 / 100 ≤ a) (h2 : a < 1 / 10) :
    log10floor a = -2 := by
  unfold log10floor
  rw [if_neg (by linarith : ¬(1 : ℚ) ≤ a)]
  have hapos : 0 < a := by linarith
  have hden10 : 10 < a.den := by
    have hle := one_div_den_le a hapos
    have hden : (0 : ℚ) < (a.den : ℚ) := by exact_mod_cast a.den_pos
    by_contra hcon
    push_neg at hcon
    have : (a.den : ℚ) ≤ 10 := by exact_mod_cast hcon
    have : (1 : ℚ) / 10 ≤ 1 / (a.den : ℚ) := by
      apply div_le_div_of_nonneg_left (by norm_num) hden this
    linarith
  obtain ⟨D2, hD⟩ : ∃ D2, (natDigits a.den).length = D2 + 2 := by
    have := le_natDigits_length 1 a.den (by simpa using Nat.le_of_lt hden10)
    exact ⟨(natDigits a.den).length - 2, by omega⟩
  rw [hD]
  rw [show D2 + 2 + 2 = (D2 + 3) + 1 from by omega, List.range_succ_eq_map,
    show D2 + 3 = (D2 + 2) + 1 from by omega, List.range_succ_eq_map,
    show D2 + 2 = (D2 + 1) + 1 from by omega, List.range_succ_eq_map,
    List.map_cons, List.map_cons, List.map_cons]
  rw [List.find?_cons_of_neg _ (by
    simp only [pow_zero, mul_one, decide_eq_true_eq]
    exact not_le.mpr (by linarith))]
  rw [List.find?_cons_of_neg _ (by
    simp only [pow_one, decide_eq_true_eq, Nat.succ_eq_add_one]
    norm_num
    linarith)]
  rw [List.find?_cons_of_pos _ (by
    simp only [decide_eq_true_eq, Nat.succ_eq_add_one]
    norm_num
    linarith)]
  rfl

theorem roundSig6_exact (a : ℚ) (M : ℕ) (hM : a = (M : ℚ) / 100)
    (hX2 : -2 ≤ log10floor a) (hX3 : log10floor a ≤ 3) :
    roundSig6 a = (a, log10floor a) := by
  simp only [roundSig6]
  rw [if_pos (by omega : (0 : ℤ) ≤ 5 - log10floor a)]
  obtain ⟨d2, hd2⟩ : ∃ d2, (5 - log10floor a).toNat = d2 + 2 :=
    ⟨(5 - log10floor a).toNat - 2, by omega⟩
  have key : (roundHalfEven (a * 10 ^ (5 - log10floor a).toNat) : ℚ) /
      10 ^ (5 - log10floor a).toNat = a := by
    rw [hd2, hM, hundredths_mul_pow M (d2 + 2) (by omega)]
    rw [show ((M * 10 ^ (d2 + 2 - 2) : ℕ) : ℚ) =
        (((M * 10 ^ (d2 + 2 - 2) : ℕ) : ℤ) : ℚ) from by push_cast; ring]
    rw [roundHalfEven_intCast]
    push_cast
    rw [pow_add]
    field_simp
    ring
  rw [key]

theorem formatG_exact (q : ℚ) (M : ℕ) (hq : q ≠ 0) (hM : |q| = (M : ℚ) / 100)
    (h6 : M < 10 ^ 6) :
    formatG q = (if q < 0 then ['-'] else []) ++
      stripTrailingZeros (renderFixed |q| 2) := by
  have hM1 : 1 ≤ M := by
    by_contra hcon
    push_neg at hcon
    have hM0 : M = 0 := by omega
    subst hM0
    simp only [Nat.cast_zero, zero_div] at hM
    exact hq (abs_eq_zero.mp hM)
  have hX : -2 ≤ log10floor |q| ∧ log10floor |q| ≤ 3 := by
    rcases le_or_lt 1 |q| with hbig | hsmall
    · have h2 : |q| < 10000 := by
        rw [hM, div_lt_iff (by norm_num : (0 : ℚ) < 100)]
        norm_num
        exact_mod_cast (by norm_num at h6 ⊢; exact h6 : M < 1000000)
      have := log10floor_bounds_big |q| hbig h2
      omega
    · rcases le_or_lt (1 / 10 : ℚ) |q| with hmid | hlow
      · rw [log10floor_small_neg1 |q| hmid hsmall]
        norm_num
      · have hge : (1 / 100 : ℚ) ≤ |q| := by
          rw [hM]
          gcongr
          exact_mod_cast hM1
        rw [log10floor_small_neg2 |q| hge hlow]
        norm_num
  simp only [formatG]
  rw [if_neg hq, roundSig6_exact |q| M hM hX.1 hX.2]
  rw [if_pos (by constructor <;> omega : (-4 : ℤ) ≤ (|q|, log10floor |q|).2 ∧
    (|q|, log10floor |q|).2 < 6)]
  congr 1
  have hd2 : 2 ≤ (5 - (|q|, log10floor |q|).2).toNat := by
    simp only
    omega
  rw [hM] at hd2 ⊢
  exact renderFixed_strip_to_two M _ hd2

/-- C7 counterexample: at `x = 10000.01` the 2-decimal rounding is exact
(`round2(x) = 10000.01`), yet `format_number` returns `"10000"` — the
`"{:g}"` conversion re-rounds to 6 significant digits — while the
shortest-decimal rendering of the rounded value demanded by the claim is
`"10000.01"`. -/
theorem C7_counterexample :
    pyRound2 (1000001 / 100) = 1000001 / 100 ∧
    format_number (1000001 / 100) = "10000" ∧
    formatNumberSpec (1000001 / 100) = "10000.01" ∧
    format_number (1000001 / 100) ≠ formatNumberSpec (1000001 / 100) :=
  ⟨by decide, by decide, by decide, by decide⟩

/-- C7 (amended): for every `x` whose 2-decimal rounding has absolute
value below `10^4` (so that the rounded value fits in the 6 significant
digits of `"{:g}"`), `format_number` renders exactly the rounded value in
shortest decimal form with the redundant leading zero stripped; and the
three instances `format(0.5) = ".5"`, `format(-0.5) = "-.5"`,
`format(1.0) = "1"` hold. -/
theorem C7_rounded_compact_rendering :
    (∀ x : ℚ, |pyRound2 x| < 10000 → format_number x = formatNumberSpec x) ∧
    format_number (1 / 2) = ".5" ∧
    format_number (-(1 / 2)) = "-.5" ∧
    format_number 1 = "1" := by
  refine ⟨?_, by decide, by decide, by decide⟩
  intro x hx
  simp only [format_number, formatNumberSpec]
  by_cases hq : pyRound2 x = 0
  · rw [hq]
    decide
  · obtain ⟨M, hMQ⟩ : ∃ M : ℕ, |pyRound2 x| = (M : ℚ) / 100 := by
      refine ⟨(roundHalfEven (100 * x)).natAbs, ?_⟩
      unfold pyRound2
      rw [abs_div, abs_of_pos (by norm_num : (0 : ℚ) < 100)]
      congr 1
      rw [Int.cast_natAbs, Int.cast_abs]
    have h6 : M < 10 ^ 6 := by
      have hlt : (M : ℚ) / 100 < 10000 := hMQ ▸ hx
      rw [div_lt_iff (by norm_num : (0 : ℚ) < 100)] at hlt
      norm_num at hlt ⊢
      exact_mod_cast hlt
    rw [formatG_exact (pyRound2 x) M hq hMQ h6]

theorem C7_witness :
    |pyRound2 (137 / 50)| < 10000 ∧
    format_number (137 / 50) = formatNumberSpec (137 / 50) :=
  ⟨by decide, C7_rounded_compact_rendering.1 (137 / 50) (by decide)⟩

/-! ### Extent-tracking lemmas (claim C10) -/

theorem convert_polyline_fold :
    ∀ (l : List (Char × Char)) (acc : List Vertex) (mn mx : Option ℚ),
      l.foldl (fun st cp =>
        let x := convert_x cp.1
        let y := convert_y cp.2
        (st.1 ++ [(x, y, 0)], some (pyUpd min x st.2.1), some (pyUpd max x st.2.2)))
        (acc, mn, mx) =
      (acc ++ l.map (fun cp => (convert_x cp.1, convert_y cp.2, (0 : ℚ))),
       pyFoldC min (l.map (fun cp => convert_x cp.1)) mn,
       pyFoldC max (l.map (fun cp => convert_x cp.1)) mx) := by
  intro l
  induction l with
  | nil => intro acc mn mx; simp [pyFoldC]
  | cons cp l ih =>
    intro acc mn mx
    simp only [List.foldl_cons, List.map_cons]
    rw [ih]
    simp [pyFoldC, List.append_assoc]

theorem convert_polyline_eq (h : List Char) :
    convert_polyline h =
      (vertsOf h, pyFoldC min (xsOf h) none, pyFoldC max (xsOf h) none) := by
  unfold convert_polyline vertsOf xsOf
  rw [convert_polyline_fold]
  simp

theorem runFold_min_eq (l : List ℚ) : runFold min l = l.min? := by
  cases l <;> rfl

theorem runFold_max_eq (l : List ℚ) : runFold max l = l.max? := by
  cases l <;> rfl

theorem pyFoldC_some_eq_foldl (g : ℚ → ℚ → ℚ) (hg : ∀ x y, g x y = g y x) :
    ∀ (t : List ℚ) (m : ℚ), (∀ j, j < t.length → (t.take j).foldl g m ≠ 0) →
      pyFoldC g t (some m) = some (t.foldl g m) := by
  intro t
  induction t with
  | nil => intro m _; rfl
  | cons b t ih =>
    intro m hcond
    have hm : m ≠ 0 := by
      have := hcond 0 (by simp)
      simpa using this
    show pyFoldC g t (some (pyUpd g b (some m))) = some ((b :: t).foldl g m)
    rw [show pyUpd g b (some m) = g b m from by simp [pyUpd, hm]]
    rw [hg b m]
    have hrec := ih (g m b) (fun j hj => by
      have := hcond (j + 1) (by simpa using hj)
      simpa [List.foldl_cons] using this)
    simpa [List.foldl_cons] using hrec

theorem pyFoldC_none_eq_runFold (g : ℚ → ℚ → ℚ) (hg : ∀ x y, g x y = g y x)
    (l : List ℚ)
    (hcond : ∀ j, j < l.length → j ≠ 0 → runFold g (l.take j) ≠ some 0) :
    pyFoldC g l none = runFold g l := by
  cases l with
  | nil => rfl
  | cons a t =>
    show pyFoldC g t (some (pyUpd g a none)) = _
    rw [show pyUpd g a none = a from rfl]
    rw [pyFoldC_some_eq_foldl g hg t a (fun j hj hcon =>
      (hcond (j + 1) (by simpa using hj) (by omega)) (by
        rw [List.take_succ_cons]
        show some ((t.take j).foldl g a) = some 0
        rw [hcon]))]
    rfl

theorem pyFoldTot_map_some (g : ℚ → ℚ → ℚ) :
    ∀ (l : List ℚ) (cur : Option ℚ),
      pyFoldTot g (l.map some) cur = pyFoldC g l cur := by
  intro l
  induction l with
  | nil => intro cur; rfl
  | cons a l ih =>
    intro cur
    show pyFoldTot g (l.map some) (pyUpdTot g (some a) cur) =
      pyFoldC g l (some (pyUpd g a cur))
    rw [show pyUpdTot g (some a) cur = some (pyUpd g a cur) from by
      cases cur with
      | none => rfl
      | some m =>
        simp only [pyUpdTot, pyUpd, Option.getD_some]
        split <;> rfl]
    exact ih _

theorem foldl_op_cons_init (g : ℚ → ℚ → ℚ)
    (hga : ∀ x y z, g (g x y) z = g x (g y z)) :
    ∀ (t : List ℚ) (b m : ℚ), (b :: t).foldl g m = g m (t.foldl g b) := by
  intro t
  induction t with
  | nil => intro b m; rfl
  | cons c t ih =>
    intro b m
    show (c :: t).foldl g (g m b) = g m ((c :: t).foldl g b)
    rw [show (c :: t).foldl g (g m b) = t.foldl g (g (g m b) c) from rfl,
      show (c :: t).foldl g b = t.foldl g (g b c) from rfl]
    rw [show t.foldl g (g (g m b) c) = (c :: t).foldl g (g m b) from rfl,
      show t.foldl g (g b c) = (c :: t).foldl g b from rfl]
    rw [ih c (g m b), ih c b, hga]

theorem runFold_append (g : ℚ → ℚ → ℚ)
    (hga : ∀ x y z, g (g x y) z = g x (g y z)) (l1 l2 : List ℚ)
    (h1 : l1 ≠ []) (h2 : l2 ≠ []) :
    runFold g (l1 ++ l2) =
      some (g ((runFold g l1).getD 0) ((runFold g l2).getD 0)) := by
  obtain ⟨a, t, rfl⟩ : ∃ a t, l1 = a :: t := by
    cases l1 with
    | nil => exact absurd rfl h1
    | cons a t => exact ⟨a, t, rfl⟩
  obtain ⟨b, t2, rfl⟩ : ∃ b t2, l2 = b :: t2 := by
    cases l2 with
    | nil => exact absurd rfl h2
    | cons b t2 => exact ⟨b, t2, rfl⟩
  show some ((t ++ b :: t2).foldl g a) = _
  rw [List.foldl_append]
  rw [foldl_op_cons_init g hga t2 b (t.foldl g a)]
  rfl

theorem runFold_flatMap (g : ℚ → ℚ → ℚ)
    (hga : ∀ x y z, g (g x y) z = g x (g y z)) :
    ∀ (segs : List (List Char)), (∀ s ∈ segs, xsOf s ≠ []) →
      runFold g (segs.flatMap xsOf) =
        runFold g (segs.map (fun p => (runFold g (xsOf p)).getD 0)) := by
  intro segs
  induction segs with
  | nil => intro _; rfl
  | cons p segs ih =>
    intro hne
    have hp : xsOf p ≠ [] := hne p (by simp)
    obtain ⟨a, t, hat⟩ : ∃ a t, xsOf p = a :: t := by
      cases hx : xsOf p with
      | nil => exact absurd hx hp
      | cons a t => exact ⟨a, t, rfl⟩
    simp only [List.flatMap_cons, List.map_cons]
    by_cases hsegs : segs = []
    · subst hsegs
      simp only [List.flatMap_nil, List.append_nil, List.map_nil]
      rw [hat]
      rfl
    · obtain ⟨q, segs2, hqq⟩ : ∃ q segs2, segs = q :: segs2 := by
        cases segs with
        | nil => exact absurd rfl hsegs
        | cons q segs2 => exact ⟨q, segs2, rfl⟩
      have hxq : xsOf q ≠ [] := hne q (by simp [hqq])
      have hrest : segs.flatMap xsOf ≠ [] := by
        rw [hqq, List.flatMap_cons]
        intro hcon
        exact hxq (List.append_eq_nil.mp hcon).1
      have hmins : segs.map (fun p => (runFold g (xsOf p)).getD 0) ≠ [] := by
        simpa using hsegs
      rw [runFold_append g hga (xsOf p) _ hp hrest]
      rw [show ((runFold g (xsOf p)).getD 0) ::
          segs.map (fun p => (runFold g (xsOf p)).getD 0) =
        [(runFold g (xsOf p)).getD 0] ++
          segs.map (fun p => (runFold g (xsOf p)).getD 0) from rfl]
      rw [runFold_append g hga _ _ (by simp) hmins]
      rw [ih (fun s hs => hne s (by simp [hs]))]
      rfl

/-- C10 counterexample: for the stroke `"RRRR"` (decoded x-coordinates
`0, 0`) the returned `x_min` **does** equal the true minimum (both are
`0`), even though the proper one-point prefix has minimum exactly `0` —
so "the returned `x_min` equals the true minimum **only when** no proper
prefix of the points has minimum x exactly 0" is false: the necessity
direction fails at this input. -/
theorem C10_counterexample :
    ¬((convert_polyline strokeZeros).2.1 =
        ((convert_polyline strokeZeros).1.map (fun v => v.1)).min? →
      ∀ j, j < ((convert_polyline strokeZeros).1.map (fun v => v.1)).length →
        j ≠ 0 →
        (((convert_polyline strokeZeros).1.map (fun v => v.1)).take j).min? ≠
          some 0) := by
  decide

/-- C10 (amended): the decoded x-coordinates of a stroke are `xsOf`; for
the stroke `strokeRestart` (x-coordinates `3, 0, 3/7`) the returned
`x_min` is `3/7` while the true minimum is `0`, and left-aligning by
`-x_min` puts the leftmost point at `-3/7 ≠ 0`; the returned `x_min`
(resp. `x_max`) equals the true minimum (resp. maximum) **whenever** no
proper nonempty prefix of the decoded x-sequence has minimum (resp.
maximum) exactly `0`; and the per-glyph totals of `convert_polylines`
equal the glyph-wide true minimum/maximum whenever, in addition, every
kept segment decodes to at least one point and no proper nonempty prefix
of the per-segment extrema passes through exactly `0`. -/
theorem C10_extent_tracking :
    (∀ h : List Char, (convert_polyline h).1.map (fun v => v.1) = xsOf h) ∧
    ((convert_polyline strokeRestart).2.1 = some (3 / 7) ∧
      (xsOf strokeRestart).min? = some 0 ∧
      ((offset_polylines [(convert_polyline strokeRestart).1] (-(3 / 7)) 0).headI.map
        (fun v => v.1)).min? = some (-(3 / 7)) ∧
      (-(3 / 7) : ℚ) ≠ 0) ∧
    (∀ h : List Char,
      (∀ j, j < (xsOf h).length → j ≠ 0 → ((xsOf h).take j).min? ≠ some 0) →
      (convert_polyline h).2.1 = (xsOf h).min?) ∧
    (∀ h : List Char,
      (∀ j, j < (xsOf h).length → j ≠ 0 → ((xsOf h).take j).max? ≠ some 0) →
      (convert_polyline h).2.2 = (xsOf h).max?) ∧
    (∀ (E : NumEnv) (h : List Char),
      (∀ p ∈ keptSegs h, xsOf p ≠ []) →
      (∀ p ∈ keptSegs h, ∀ j, j < (xsOf p).length → j ≠ 0 →
        ((xsOf p).take j).min? ≠ some 0) →
      (∀ j, j < (keptSegs h).length → j ≠ 0 →
        (((keptSegs h).map (fun p => ((xsOf p).min?).getD 0)).take j).min? ≠
          some 0) →
      (convert_polylines E h).2.1 = (allXs h).min?) ∧
    (∀ (E : NumEnv) (h : List Char),
      (∀ p ∈ keptSegs h, xsOf p ≠ []) →
      (∀ p ∈ keptSegs h, ∀ j, j < (xsOf p).length → j ≠ 0 →
        ((xsOf p).take j).max? ≠ some 0) →
      (∀ j, j < (keptSegs h).length → j ≠ 0 →
        (((keptSegs h).map (fun p => ((xsOf p).max?).getD 0)).take j).max? ≠
          some 0) →
      (convert_polylines E h).2.2 = (allXs h).max?) := by
  have hxmap : ∀ h : List Char,
      (convert_polyline h).1.map (fun v => v.1) = xsOf h := by
    intro h
    rw [convert_polyline_eq]
    show (vertsOf h).map (fun v => v.1) = xsOf h
    unfold vertsOf xsOf
    rw [List.map_map]
    rfl
  have hmin : ∀ h : List Char,
      (∀ j, j < (xsOf h).length → j ≠ 0 → ((xsOf h).take j).min? ≠ some 0) →
      (convert_polyline h).2.1 = (xsOf h).min? := by
    intro h hcond
    rw [convert_polyline_eq]
    show pyFoldC min (xsOf h) none = _
    rw [pyFoldC_none_eq_runFold min min_comm (xsOf h) (fun j hj hj0 => by
      rw [runFold_min_eq]
      exact hcond j hj hj0)]
    rw [runFold_min_eq]
  have hmax : ∀ h : List Char,
      (∀ j, j < (xsOf h).length → j ≠ 0 → ((xsOf h).take j).max? ≠ some 0) →
      (convert_polyline h).2.2 = (xsOf h).max? := by
    intro h hcond
    rw [convert_polyline_eq]
    show pyFoldC max (xsOf h) none = _
    rw [pyFoldC_none_eq_runFold max max_comm (xsOf h) (fun j hj hj0 => by
      rw [runFold_max_eq]
      exact hcond j hj hj0)]
    rw [runFold_max_eq]
  refine ⟨hxmap, ⟨by decide, by decide, by decide, by decide⟩, hmin, hmax, ?_, ?_⟩
  · intro E h hne hseg htot
    rw [convert_polylines_eq]
    show pyFoldTot min ((keptSegs h).map (fun p => (convert_polyline p).2.1))
      none = _
    have hmap : (keptSegs h).map (fun p => (convert_polyline p).2.1) =
        ((keptSegs h).map (fun p => ((xsOf p).min?).getD 0)).map some := by
      rw [List.map_map]
      apply List.map_congr_left
      intro p hp
      rw [hmin p (hseg p hp)]
      simp only [Function.comp_apply]
      obtain ⟨v, hv⟩ := Option.ne_none_iff_exists'.mp
        (fun hcon => (hne p hp) (List.min?_eq_none_iff.mp hcon))
      rw [hv]
      rfl
    rw [hmap, pyFoldTot_map_some]
    rw [pyFoldC_none_eq_runFold min min_comm _ (fun j hj hj0 => by
      rw [runFold_min_eq]
      exact htot j (by simpa using hj) hj0)]
    rw [runFold_min_eq]
    unfold allXs
    conv_rhs => rw [← runFold_min_eq]
    rw [runFold_flatMap min min_assoc (keptSegs h) hne, runFold_min_eq]
    simp only [runFold_min_eq]
  · intro E h hne hseg htot
    rw [convert_polylines_eq]
    show pyFoldTot max ((keptSegs h).map (fun p => (convert_polyline p).2.2))
      none = _
    have hmap : (keptSegs h).map (fun p => (convert_polyline p).2.2) =
        ((keptSegs h).map (fun p => ((xsOf p).max?).getD 0)).map some := by
      rw [List.map_map]
      apply List.map_congr_left
      intro p hp
      rw [hmax p (hseg p hp)]
      simp only [Function.comp_apply]
      obtain ⟨v, hv⟩ := Option.ne_none_iff_exists'.mp
        (fun hcon => (hne p hp) (List.max?_eq_none_iff.mp hcon))
      rw [hv]
      rfl
    rw [hmap, pyFoldTot_map_some]
    rw [pyFoldC_none_eq_runFold max max_comm _ (fun j hj hj0 => by
      rw [runFold_max_eq]
      exact htot j (by simpa using hj) hj0)]
    rw [runFold_max_eq]
    unfold allXs
    conv_rhs => rw [← runFold_max_eq]
    rw [runFold_flatMap max max_assoc (keptSegs h) hne, runFold_max_eq]
    simp only [runFold_max_eq]

theorem C10_witness :
    (∀ j, j < (xsOf strokeNoZero).length → j ≠ 0 →
      ((xsOf strokeNoZero).take j).min? ≠ some 0) ∧
    (convert_polyline strokeNoZero).2.1 = (xsOf strokeNoZero).min? :=
  ⟨by decide, C10_extent_tracking.2.2.1 strokeNoZero (by decide)⟩
